import Mathlib

/-!
# Verification of the twentyPlayer loop scheduler

A shallow embedding, over `ℚ`, of the MIDI loop scheduler in
`src/twentyPlayer/main.cpp` (`PluginHost::audioDeviceIOCallbackWithContext`).

The C++ code works with `double` beat arithmetic; here the same arithmetic is
carried out exactly over the rationals:

* `static_cast<int>` on a non-negative value truncates toward zero, embedded
  as `ratTrunc`;
* `std::fmod` for a positive modulus truncates toward zero, embedded as
  `fmodQ`;
* `juce::MidiBuffer::addEvent` keeps the buffer sorted by sample position and
  places an event added at an existing time after the events already at that
  time, embedded as `addEvent`;
* the hardcoded `melody` array, the `5.0`-beat loop, the wrap test and the
  in-buffer range guard are translated line by line into `scheduleBlockTable`
  and its helpers.
-/

/-- Truncation toward zero of a rational, the behaviour of C++
`static_cast<int>` (and of `std::fmod`'s implicit quotient). -/
def ratTrunc (q : ℚ) : ℤ := if q < 0 then ⌈q⌉ else ⌊q⌋

/-- `std::fmod x y`: `x - y * trunc (x / y)`. -/
def fmodQ (x y : ℚ) : ℚ := x - y * (ratTrunc (x / y) : ℚ)

/-- One entry of the hardcoded `melody` array:
`{noteNumber, startBeat, durationBeats, velocity}`. -/
structure Note where
  pitch : ℤ
  startBeat : ℚ
  duration : ℚ
  velocity : ℚ
deriving DecidableEq, Repr

/-- The hardcoded seven-note `melody` table from `main.cpp`. -/
def melody : List Note :=
  [⟨60, 0, 1/2, 8/10⟩, ⟨64, 1/2, 1/2, 8/10⟩, ⟨67, 1, 1/2, 8/10⟩,
   ⟨72, 3/2, 1, 9/10⟩, ⟨67, 5/2, 1/2, 7/10⟩, ⟨64, 3, 1/2, 7/10⟩,
   ⟨60, 7/2, 3/2, 8/10⟩]

/-- `double loopLength = 5.0;` — the loop length in beats. -/
def loopLength : ℚ := 5

/-- Kind of a MIDI message emitted by the callback. -/
inductive EventKind
  | noteOn
  | noteOff
deriving DecidableEq, Repr

/-- A scheduled MIDI event: sample offset within the current buffer, kind,
pitch and velocity (a JUCE `noteOff(1, pitch)` carries velocity `0`). -/
structure Event where
  sampleOffset : ℤ
  kind : EventKind
  pitch : ℤ
  velocity : ℚ
deriving DecidableEq, Repr

/-- The membership test of the code:
`bool wrapped = loopEndBeat < loopStartBeat;` followed by
`(!wrapped && b >= s && b < e) || (wrapped && (b >= s || b < e))`. -/
def windowContains (s e b : ℚ) : Bool :=
  if e < s then decide (b ≥ s) || decide (b < e)
  else decide (b ≥ s) && decide (b < e)

/-- The shared body of the note-on and note-off branches: test membership of
the beat `b` in the window `[s, e)`, compute `beatOffset` (adding
`loopLength` when negative), truncate `beatOffset * samplesPerBeat` to an
integer sample offset, and keep it only if it lies in `[0, numSamples)`.
Returns the offsets (zero or one) that are emitted. -/
def beatEmission (spb s e : ℚ) (n : ℤ) (b : ℚ) : List ℤ :=
  if windowContains s e b then
    let beatOffset0 := b - s
    let beatOffset := if beatOffset0 < 0 then beatOffset0 + loopLength else beatOffset0
    let so := ratTrunc (beatOffset * spb)
    if 0 ≤ so ∧ so < n then [so] else []
  else []

/-- `double noteOffBeat = n.startBeat + n.duration;
if (noteOffBeat >= loopLength) noteOffBeat -= loopLength;` —
the beat at which the note-off membership test is made. -/
def offTestedBeat (nt : Note) : ℚ :=
  let x := nt.startBeat + nt.duration
  if x ≥ loopLength then x - loopLength else x

/-- The note-on branch of the loop body for one note. -/
def onEventFor (spb s e : ℚ) (n : ℤ) (nt : Note) : List Event :=
  (beatEmission spb s e n nt.startBeat).map
    (fun so => ⟨so, EventKind.noteOn, nt.pitch, nt.velocity⟩)

/-- The note-off branch of the loop body for one note. -/
def offEventFor (spb s e : ℚ) (n : ℤ) (nt : Note) : List Event :=
  (beatEmission spb s e n (offTestedBeat nt)).map
    (fun so => ⟨so, EventKind.noteOff, nt.pitch, 0⟩)

/-- All events one iteration of the `for` loop adds for note `nt`
(note-on first, then note-off), in the order they are passed to
`midiBuffer.addEvent`. -/
def noteEventsFor (spb s e : ℚ) (n : ℤ) (nt : Note) : List Event :=
  onEventFor spb s e n nt ++ offEventFor spb s e n nt

/-- `juce::MidiBuffer::addEvent`: insert the event keeping the buffer sorted
by sample offset, after any events already present at the same time. -/
def addEvent : List Event → Event → List Event
  | [], ev => [ev]
  | x :: xs, ev =>
    if ev.sampleOffset < x.sampleOffset then ev :: x :: xs else x :: addEvent xs ev

/-- The loop window of a buffer:
`loopStartBeat = fmod(positionInSamples / samplesPerBeat, loopLength)` and
`loopEndBeat = fmod((positionInSamples + numSamples) / samplesPerBeat, loopLength)`. -/
def blockWindow (spb : ℚ) (p n : ℤ) : ℚ × ℚ :=
  (fmodQ ((p : ℚ) / spb) loopLength, fmodQ (((p + n : ℤ) : ℚ) / spb) loopLength)

/-- All events the loop passes to `midiBuffer.addEvent` during one callback,
in iteration order, for an arbitrary event table. -/
def blockCandidates (table : List Note) (spb : ℚ) (p n : ℤ) : List Event :=
  table.flatMap (noteEventsFor spb (blockWindow spb p n).1 (blockWindow spb p n).2 n)

/-- The contents of `midiBuffer` at the end of the scheduling loop of one
callback, for an arbitrary event table: every candidate event inserted in
iteration order by `addEvent`. -/
def scheduleBlockTable (table : List Note) (spb : ℚ) (p n : ℤ) : List Event :=
  List.foldl addEvent [] (blockCandidates table spb p n)

/-- The scheduling part of `audioDeviceIOCallbackWithContext` as written,
with the hardcoded `melody` table. -/
def scheduleBlock (spb : ℚ) (p n : ℤ) : List Event :=
  scheduleBlockTable melody spb p n

/-- The mutable state of `PluginHost` used by the scheduling path. -/
structure HostState where
  samplesPerBeat : ℚ
  positionInSamples : ℤ
deriving DecidableEq, Repr

/-- One invocation of `audioDeviceIOCallbackWithContext` with `numSamples = n`:
the MIDI events are computed from the current `positionInSamples`, and
`positionInSamples += numSamples;` is the last statement of the callback. -/
def audioCallbackStep (st : HostState) (n : ℤ) : HostState × List Event :=
  (⟨st.samplesPerBeat, st.positionInSamples + n⟩,
   scheduleBlock st.samplesPerBeat st.positionInSamples n)

/-- The state after a sequence of callbacks with the given buffer sizes. -/
def runCallbacks : HostState → List ℤ → HostState
  | st, [] => st
  | st, n :: ns => runCallbacks (audioCallbackStep st n).1 ns

/-- The full schedule of a contiguous run of buffers with sizes `ns`
starting at sample position `p`, as emitted buffer by buffer. -/
def runSchedule (spb : ℚ) : ℤ → List ℤ → List Event
  | _, [] => []
  | p, n :: ns => scheduleBlock spb p n ++ runSchedule spb (p + n) ns

/-- Global sample positions at which the scheduling loop emits an event for
the test beat `b` (a note-on start beat or a reduced note-off beat), across a
contiguous run of buffers with sizes `ns` starting at sample position `p`. -/
def runEmissions (spb b : ℚ) : ℤ → List ℤ → List ℤ
  | _, [] => []
  | p, n :: ns =>
    (beatEmission spb (blockWindow spb p n).1 (blockWindow spb p n).2 n b).map
      (fun so => p + so)
    ++ runEmissions spb b (p + n) ns

/-- The note-on/note-off candidate offset of the code with the range guard
removed: membership test and offset computation only. -/
def beatCandidate (spb s e b : ℚ) : List ℤ :=
  if windowContains s e b then
    let beatOffset0 := b - s
    let beatOffset := if beatOffset0 < 0 then beatOffset0 + loopLength else beatOffset0
    [ratTrunc (beatOffset * spb)]
  else []

section Helpers

theorem ratTrunc_of_nonneg {q : ℚ} (h : 0 ≤ q) : ratTrunc q = ⌊q⌋ := by
  unfold ratTrunc
  rw [if_neg (not_lt.mpr h)]

theorem fmodQ_eq_sub {x : ℚ} (k : ℤ) (hx : 0 ≤ x)
    (h1 : 5 * k ≤ x) (h2 : x < 5 * (k + 1)) : fmodQ x loopLength = x - 5 * k := by
  have h5 : (0:ℚ) < 5 := by norm_num
  have hk : ratTrunc (x / 5) = k := by
    rw [ratTrunc_of_nonneg (div_nonneg hx h5.le), Int.floor_eq_iff]
    constructor
    · rw [le_div_iff₀ h5]
      linarith
    · rw [div_lt_iff₀ h5]
      linarith
  unfold fmodQ loopLength
  rw [hk]

theorem mem_addEvent {ev x : Event} : ∀ {l : List Event}, x ∈ addEvent l ev ↔ x = ev ∨ x ∈ l
  | [] => by simp [addEvent]
  | y :: l => by
    unfold addEvent
    split
    · simp
    · simp [mem_addEvent (l := l)]
      tauto

theorem addEvent_length (ev : Event) : ∀ (l : List Event), (addEvent l ev).length = l.length + 1
  | [] => rfl
  | y :: l => by
    unfold addEvent
    split
    · rfl
    · simp [addEvent_length ev l]

theorem foldl_addEvent_length :
    ∀ (l acc : List Event), (List.foldl addEvent acc l).length = acc.length + l.length
  | [], acc => rfl
  | ev :: l, acc => by
    rw [List.foldl_cons, foldl_addEvent_length l, addEvent_length]
    simp
    omega

theorem mem_foldl_addEvent {x : Event} :
    ∀ {l acc : List Event}, x ∈ List.foldl addEvent acc l ↔ x ∈ acc ∨ x ∈ l
  | [], acc => by simp
  | ev :: l, acc => by
    rw [List.foldl_cons, mem_foldl_addEvent (l := l), mem_addEvent]
    simp
    tauto

end Helpers

section BlockComputations

theorem scheduleBlock_at_11000 :
    scheduleBlock 22050 11000 512 =
      [⟨25, EventKind.noteOff, 60, 0⟩, ⟨25, EventKind.noteOn, 64, 8/10⟩] := by
  norm_num [scheduleBlock, scheduleBlockTable, blockCandidates, blockWindow, fmodQ, ratTrunc,
    loopLength, melody, noteEventsFor, onEventFor, offEventFor, beatEmission, windowContains,
    offTestedBeat, addEvent]

theorem scheduleBlock_at_0 :
    scheduleBlock 22050 0 512 =
      [⟨0, EventKind.noteOn, 60, 8/10⟩, ⟨0, EventKind.noteOff, 60, 0⟩] := by
  norm_num [scheduleBlock, scheduleBlockTable, blockCandidates, blockWindow, fmodQ, ratTrunc,
    loopLength, melody, noteEventsFor, onEventFor, offEventFor, beatEmission, windowContains,
    offTestedBeat, addEvent]

end BlockComputations

/-- C2: for a buffer whose window wraps (`loopEndBeat < loopStartBeat`), the
code's membership test accepts exactly the beats `b` with
`b ≥ loopStartBeat` or `b < loopEndBeat`; for beats in `[0, loopLength)`
this is exactly membership in `[loopStartBeat, loopLength) ∪ [0, loopEndBeat)`. -/
theorem wrapped_window_membership (s e b : ℚ) (hw : e < s) :
    (windowContains s e b = true ↔ (s ≤ b ∨ b < e)) ∧
    (0 ≤ b → b < loopLength →
      (windowContains s e b = true ↔
        ((s ≤ b ∧ b < loopLength) ∨ (0 ≤ b ∧ b < e)))) := by
  unfold windowContains loopLength
  rw [if_pos hw]
  simp only [Bool.or_eq_true, decide_eq_true_eq, ge_iff_le]
  refine ⟨trivial, fun hb0 hb5 => ?_⟩
  constructor
  · rintro (h | h)
    · exact Or.inl ⟨h, hb5⟩
    · exact Or.inr ⟨hb0, h⟩
  · rintro (⟨h, _⟩ | ⟨_, h⟩)
    · exact Or.inl h
    · exact Or.inr h

theorem wrapped_window_membership_witness :
    ((2:ℚ)/10 < 48/10) ∧
    ((windowContains (48/10) (2/10) (49/10) = true ↔
        ((48:ℚ)/10 ≤ 49/10 ∨ (49:ℚ)/10 < 2/10)) ∧
     (0 ≤ (49:ℚ)/10 → (49:ℚ)/10 < loopLength →
       (windowContains (48/10) (2/10) (49/10) = true ↔
         (((48:ℚ)/10 ≤ 49/10 ∧ (49:ℚ)/10 < loopLength) ∨
          (0 ≤ (49:ℚ)/10 ∧ (49:ℚ)/10 < 2/10))))) :=
  ⟨by norm_num, wrapped_window_membership (48/10) (2/10) (49/10) (by norm_num)⟩

/-- C6: with `samplesPerBeat = 22050` and the single note
`{pitch 60, startBeat 0, duration 0.5}`, a 512-sample buffer at
`positionInSamples = 0` emits exactly one NoteOn(60) at offset 0 and no
NoteOff for that note; with the full hardcoded table, that note's loop
iteration likewise produces exactly its NoteOn at offset 0 and no NoteOff. -/
theorem first_buffer_noteOn_only :
    scheduleBlockTable [⟨60, 0, 1/2, 8/10⟩] 22050 0 512 =
      [⟨0, EventKind.noteOn, 60, 8/10⟩] ∧
    onEventFor 22050 (blockWindow 22050 0 512).1 (blockWindow 22050 0 512).2 512
      ⟨60, 0, 1/2, 8/10⟩ = [⟨0, EventKind.noteOn, 60, 8/10⟩] ∧
    offEventFor 22050 (blockWindow 22050 0 512).1 (blockWindow 22050 0 512).2 512
      ⟨60, 0, 1/2, 8/10⟩ = [] := by
  refine ⟨?_, ?_, ?_⟩ <;>
    norm_num [scheduleBlockTable, blockCandidates, blockWindow, fmodQ, ratTrunc, loopLength,
      noteEventsFor, onEventFor, offEventFor, beatEmission, windowContains, offTestedBeat,
      addEvent]

/-- C7: with the same single note, a 512-sample buffer at
`positionInSamples = 11000` emits NoteOff(60) at offset `25`; the same
NoteOff(60) at offset 25 is also emitted with the full hardcoded table. -/
theorem noteOff_lands_at_25 :
    scheduleBlockTable [⟨60, 0, 1/2, 8/10⟩] 22050 11000 512 =
      [⟨25, EventKind.noteOff, 60, 0⟩] ∧
    (⟨25, EventKind.noteOff, 60, 0⟩ : Event) ∈ scheduleBlock 22050 11000 512 := by
  constructor
  · norm_num [scheduleBlockTable, blockCandidates, blockWindow, fmodQ, ratTrunc, loopLength,
      noteEventsFor, onEventFor, offEventFor, beatEmission, windowContains, offTestedBeat,
      addEvent]
  · rw [scheduleBlock_at_11000]
    simp

/-- C9: the scheduler is a function of `samplesPerBeat`, `positionInSamples`,
`numSamples` and the (fixed) table: two callback invocations from states that
agree on these produce identical event lists. -/
theorem scheduler_deterministic (st₁ st₂ : HostState) (n : ℤ)
    (hspb : st₁.samplesPerBeat = st₂.samplesPerBeat)
    (hpos : st₁.positionInSamples = st₂.positionInSamples) :
    (audioCallbackStep st₁ n).2 = (audioCallbackStep st₂ n).2 := by
  unfold audioCallbackStep
  rw [hspb, hpos]

theorem scheduler_deterministic_witness :
    (HostState.mk 22050 0).samplesPerBeat = (HostState.mk 22050 0).samplesPerBeat ∧
    (audioCallbackStep ⟨22050, 0⟩ 512).2 = (audioCallbackStep ⟨22050, 0⟩ 512).2 :=
  ⟨rfl, scheduler_deterministic ⟨22050, 0⟩ ⟨22050, 0⟩ 512 rfl rfl⟩

theorem runCallbacks_position : ∀ (ns : List ℤ) (st : HostState),
    (runCallbacks st ns).positionInSamples = st.positionInSamples + ns.sum
  | [], st => by simp [runCallbacks]
  | n :: ns, st => by
    rw [runCallbacks, runCallbacks_position ns]
    simp [audioCallbackStep]
    omega

/-- C8: a callback advances `positionInSamples` by exactly `numSamples`, the
events of the callback are computed from the pre-advance position, and over
any run of callbacks with non-negative buffer sizes the counter advances by
their sum, stays monotone, and stays non-negative. -/
theorem position_counter_contract (st : HostState) (n : ℤ) (ns : List ℤ)
    (hns : ∀ m ∈ ns, 0 ≤ m) :
    (audioCallbackStep st n).1.positionInSamples = st.positionInSamples + n ∧
    (audioCallbackStep st n).2 = scheduleBlock st.samplesPerBeat st.positionInSamples n ∧
    (runCallbacks st ns).positionInSamples = st.positionInSamples + ns.sum ∧
    st.positionInSamples ≤ (runCallbacks st ns).positionInSamples ∧
    (0 ≤ st.positionInSamples → 0 ≤ (runCallbacks st ns).positionInSamples) := by
  have hsum : 0 ≤ ns.sum := List.sum_nonneg hns
  refine ⟨rfl, rfl, runCallbacks_position ns st, ?_, fun h => ?_⟩
  · rw [runCallbacks_position]
    omega
  · rw [runCallbacks_position]
    omega

theorem position_counter_contract_witness :
    (∀ m ∈ ([512, 512] : List ℤ), 0 ≤ m) ∧
    ((audioCallbackStep ⟨22050, 0⟩ 512).1.positionInSamples =
        (HostState.mk 22050 0).positionInSamples + 512 ∧
     (audioCallbackStep ⟨22050, 0⟩ 512).2 =
        scheduleBlock (HostState.mk 22050 0).samplesPerBeat
          (HostState.mk 22050 0).positionInSamples 512 ∧
     (runCallbacks ⟨22050, 0⟩ [512, 512]).positionInSamples =
        (HostState.mk 22050 0).positionInSamples + ([512, 512] : List ℤ).sum ∧
     (HostState.mk 22050 0).positionInSamples ≤
        (runCallbacks ⟨22050, 0⟩ [512, 512]).positionInSamples ∧
     (0 ≤ (HostState.mk 22050 0).positionInSamples →
        0 ≤ (runCallbacks ⟨22050, 0⟩ [512, 512]).positionInSamples)) :=
  ⟨by decide, position_counter_contract ⟨22050, 0⟩ 512 [512, 512] (by decide)⟩

section LengthBounds

theorem beatEmission_length_le (spb s e : ℚ) (n : ℤ) (b : ℚ) :
    (beatEmission spb s e n b).length ≤ 1 := by
  unfold beatEmission
  split
  · dsimp only
    split_ifs <;> simp
  · simp

theorem noteEventsFor_length_le (spb s e : ℚ) (n : ℤ) (nt : Note) :
    (noteEventsFor spb s e n nt).length ≤ 2 := by
  have h1 := beatEmission_length_le spb s e n nt.startBeat
  have h2 := beatEmission_length_le spb s e n (offTestedBeat nt)
  simp only [noteEventsFor, onEventFor, offEventFor, List.length_append, List.length_map]
  omega

theorem blockCandidates_length_le (spb : ℚ) (p n : ℤ) :
    ∀ table : List Note, (blockCandidates table spb p n).length ≤ 2 * table.length
  | [] => by simp [blockCandidates]
  | nt :: table => by
    have h1 := noteEventsFor_length_le spb (blockWindow spb p n).1 (blockWindow spb p n).2 n nt
    have h2 := blockCandidates_length_le spb p n table
    simp only [blockCandidates, List.flatMap_cons, List.length_append, List.length_cons] at *
    omega

end LengthBounds

/-- C10: each note contributes at most one NoteOn and at most one NoteOff per
buffer, so a callback emits at most `2 * table.length` events — at most 14
for the hardcoded 7-note melody. -/
theorem per_buffer_event_bound (table : List Note) (spb : ℚ) (p n : ℤ) :
    (∀ s e nt, (onEventFor spb s e n nt).length ≤ 1 ∧
      (offEventFor spb s e n nt).length ≤ 1) ∧
    (scheduleBlockTable table spb p n).length ≤ 2 * table.length ∧
    (scheduleBlock spb p n).length ≤ 2 * melody.length ∧
    2 * melody.length = 14 := by
  refine ⟨fun s e nt => ⟨?_, ?_⟩, ?_, ?_, rfl⟩
  · simpa [onEventFor] using beatEmission_length_le spb s e n nt.startBeat
  · simpa [offEventFor] using beatEmission_length_le spb s e n (offTestedBeat nt)
  · rw [scheduleBlockTable, foldl_addEvent_length]
    simpa using blockCandidates_length_le spb p n table
  · rw [scheduleBlock, scheduleBlockTable, foldl_addEvent_length]
    simpa using blockCandidates_length_le spb p n melody

section RangeGuard

theorem beatEmission_mem {spb s e b : ℚ} {n so : ℤ} (h : so ∈ beatEmission spb s e n b) :
    0 ≤ so ∧ so < n := by
  unfold beatEmission at h
  split at h
  · dsimp only at h
    split_ifs at h with h1 h2 h3
    all_goals simp_all
  · simp at h

theorem blockCandidates_mem {table : List Note} {spb : ℚ} {p n : ℤ} {ev : Event}
    (h : ev ∈ blockCandidates table spb p n) :
    0 ≤ ev.sampleOffset ∧ ev.sampleOffset < n := by
  unfold blockCandidates at h
  rw [List.mem_flatMap] at h
  obtain ⟨nt, _, hev⟩ := h
  unfold noteEventsFor onEventFor offEventFor at hev
  rw [List.mem_append] at hev
  rcases hev with hev | hev <;>
  · rw [List.mem_map] at hev
    obtain ⟨so, hso, rfl⟩ := hev
    exact beatEmission_mem hso

end RangeGuard

/-- C3: every event emitted into the MIDI buffer has a sample offset in
`[0, numSamples)`; a beat that passes the membership test but whose computed
offset falls outside that range contributes nothing — the emission equals the
unguarded candidate list filtered by the range check, with no error path. -/
theorem offsets_in_range_and_silent_drop (table : List Note) (spb : ℚ) (p n : ℤ) :
    (∀ ev ∈ scheduleBlockTable table spb p n,
      0 ≤ ev.sampleOffset ∧ ev.sampleOffset < n) ∧
    (∀ s e b, beatEmission spb s e n b =
      (beatCandidate spb s e b).filter
        (fun so => decide (0 ≤ so) && decide (so < n))) := by
  constructor
  · intro ev hev
    rw [scheduleBlockTable, mem_foldl_addEvent] at hev
    rcases hev with hev | hev
    · simp at hev
    · exact blockCandidates_mem hev
  · intro s e b
    unfold beatEmission beatCandidate
    split
    · dsimp only
      split_ifs with h1 h2 h3
      · simp [List.filter_singleton, h2.1, h2.2]
      · simp [List.filter_singleton, Bool.cond_eq_ite, Bool.and_eq_true, decide_eq_true_eq, h2]
      · simp [List.filter_singleton, h3.1, h3.2]
      · simp [List.filter_singleton, Bool.cond_eq_ite, Bool.and_eq_true, decide_eq_true_eq, h3]
    · simp

theorem offsets_in_range_witness :
    ((⟨25, EventKind.noteOff, 60, 0⟩ : Event) ∈ scheduleBlock 22050 11000 512) ∧
    (0 ≤ (25:ℤ) ∧ (25:ℤ) < 512) := by
  have hm : (⟨25, EventKind.noteOff, 60, 0⟩ : Event) ∈ scheduleBlock 22050 11000 512 := by
    rw [scheduleBlock_at_11000]
    simp
  exact ⟨hm, (offsets_in_range_and_silent_drop melody 22050 11000 512).1 _ hm⟩

section SortedInsertion

theorem addEvent_sorted {l : List Event}
    (hs : List.Sorted (fun a b : Event => a.sampleOffset ≤ b.sampleOffset) l) (ev : Event) :
    List.Sorted (fun a b : Event => a.sampleOffset ≤ b.sampleOffset) (addEvent l ev) := by
  induction l with
  | nil => simp [addEvent]
  | cons x xs ih =>
    rw [List.sorted_cons] at hs
    obtain ⟨hx, hxs⟩ := hs
    unfold addEvent
    split
    · rename_i hlt
      rw [List.sorted_cons]
      refine ⟨fun y hy => ?_, ?_⟩
      · rcases List.mem_cons.mp hy with rfl | hy
        · exact hlt.le
        · exact hlt.le.trans (hx y hy)
      · rw [List.sorted_cons]
        exact ⟨hx, hxs⟩
    · rename_i hge
      rw [List.sorted_cons]
      refine ⟨fun y hy => ?_, ih hxs⟩
      rcases mem_addEvent.mp hy with rfl | hy
      · exact not_lt.mp hge
      · exact hx y hy

theorem foldl_addEvent_sorted : ∀ (l acc : List Event),
    List.Sorted (fun a b : Event => a.sampleOffset ≤ b.sampleOffset) acc →
    List.Sorted (fun a b : Event => a.sampleOffset ≤ b.sampleOffset)
      (List.foldl addEvent acc l)
  | [], _, h => h
  | ev :: l, acc, h => by
    rw [List.foldl_cons]
    exact foldl_addEvent_sorted l _ (addEvent_sorted h ev)

theorem filter_offset_eq_nil {t : ℤ} {l : List Event}
    (h : ∀ y ∈ l, t < y.sampleOffset) :
    l.filter (fun x => decide (x.sampleOffset = t)) = [] :=
  List.filter_eq_nil_iff.mpr fun a ha => by simpa using (h a ha).ne'

theorem addEvent_filter {t : ℤ} (ev : Event) : ∀ {l : List Event},
    List.Sorted (fun a b : Event => a.sampleOffset ≤ b.sampleOffset) l →
    (addEvent l ev).filter (fun x => decide (x.sampleOffset = t)) =
      l.filter (fun x => decide (x.sampleOffset = t)) ++
        (if ev.sampleOffset = t then [ev] else []) := by
  intro l hs
  induction l with
  | nil =>
    unfold addEvent
    by_cases ht : ev.sampleOffset = t <;> simp [ht, List.filter_singleton]
  | cons x xs ih =>
    rw [List.sorted_cons] at hs
    obtain ⟨hx, hxs⟩ := hs
    unfold addEvent
    split
    · rename_i hlt
      by_cases ht : ev.sampleOffset = t
      · have hnil : (x :: xs).filter (fun y => decide (y.sampleOffset = t)) = [] := by
          apply filter_offset_eq_nil
          intro y hy
          rcases List.mem_cons.mp hy with rfl | hy
          · exact ht ▸ hlt
          · exact lt_of_lt_of_le (ht ▸ hlt) (hx y hy)
        rw [List.filter_cons, hnil]
        simp [ht]
      · rw [List.filter_cons]
        simp [ht]
    · rename_i hge
      rw [List.filter_cons, ih hxs, List.filter_cons]
      by_cases hxt : x.sampleOffset = t <;> simp [hxt]

theorem foldl_addEvent_filter {t : ℤ} : ∀ (l acc : List Event),
    List.Sorted (fun a b : Event => a.sampleOffset ≤ b.sampleOffset) acc →
    (List.foldl addEvent acc l).filter (fun x => decide (x.sampleOffset = t)) =
      acc.filter (fun x => decide (x.sampleOffset = t)) ++
        l.filter (fun x => decide (x.sampleOffset = t))
  | [], acc, _ => by simp
  | ev :: l, acc, h => by
    rw [List.foldl_cons, foldl_addEvent_filter l _ (addEvent_sorted h ev),
      addEvent_filter ev h, List.filter_cons]
    by_cases ht : ev.sampleOffset = t <;> simp [ht]

end SortedInsertion

/-- C5 (amended): every buffer's event list is in non-decreasing sample-offset
order, and for each offset the tied events appear exactly in Event-Table
iteration order (note-on before note-off within one note). A NoteOn does not
in general precede a tying NoteOff of a different pitch: a NoteOff of an
earlier table entry precedes a NoteOn of a later entry at the same offset. -/
theorem block_events_sorted_stable (table : List Note) (spb : ℚ) (p n : ℤ) :
    List.Sorted (fun a b : Event => a.sampleOffset ≤ b.sampleOffset)
      (scheduleBlockTable table spb p n) ∧
    (∀ t : ℤ, (scheduleBlockTable table spb p n).filter
        (fun x => decide (x.sampleOffset = t)) =
      (blockCandidates table spb p n).filter
        (fun x => decide (x.sampleOffset = t))) := by
  refine ⟨foldl_addEvent_sorted _ [] (by simp), fun t => ?_⟩
  rw [scheduleBlockTable, foldl_addEvent_filter _ [] (by simp)]
  simp

/-- C5 counterexample: with `samplesPerBeat = 22050`, the 512-sample buffer at
`positionInSamples = 11000` emits a NoteOff(60) and a NoteOn(64) tied at
sample offset 25, with the NoteOff first — refuting the claim that a NoteOn
precedes a tying NoteOff of a different pitch. -/
theorem tie_order_counterexample :
    (scheduleBlock 22050 11000 512).map Event.kind =
      [EventKind.noteOff, EventKind.noteOn] ∧
    (scheduleBlock 22050 11000 512).map Event.sampleOffset = [25, 25] ∧
    (scheduleBlock 22050 11000 512).map Event.pitch = [60, 64] := by
  rw [scheduleBlock_at_11000]
  exact ⟨rfl, rfl, rfl⟩

theorem fmodQ_bounds {x : ℚ} (hx : 0 ≤ x) :
    0 ≤ fmodQ x loopLength ∧ fmodQ x loopLength < 5 := by
  unfold fmodQ loopLength
  rw [ratTrunc_of_nonneg (div_nonneg hx (by norm_num))]
  have h1 : ((⌊x / 5⌋ : ℤ):ℚ) ≤ x / 5 := Int.floor_le _
  have h2 : x / 5 < ⌊x / 5⌋ + 1 := Int.lt_floor_add_one _
  have h3 : x / 5 * 5 = x := div_mul_cancel₀ _ (by norm_num)
  constructor <;> nlinarith

/-- C4 (amended): for every note with
`0 ≤ startBeat + duration < 2 * loopLength` — which holds for every note of
the hardcoded table — the beat tested for the off event equals
`(startBeat + duration) mod loopLength`; the code subtracts `loopLength` at
most once, so for `startBeat + duration ≥ 2 * loopLength` the tested beat
is not the mod reduction. The off event's membership test is computed
independently of the on event's test, from `offTestedBeat` alone. -/
theorem off_beat_mod_and_independent (nt : Note)
    (h0 : 0 ≤ nt.startBeat + nt.duration) :
    (nt.startBeat + nt.duration < 2 * loopLength →
      offTestedBeat nt = fmodQ (nt.startBeat + nt.duration) loopLength) ∧
    (2 * loopLength ≤ nt.startBeat + nt.duration →
      offTestedBeat nt ≠ fmodQ (nt.startBeat + nt.duration) loopLength) ∧
    (∀ spb s e n, noteEventsFor spb s e n nt =
        onEventFor spb s e n nt ++ offEventFor spb s e n nt ∧
      offEventFor spb s e n nt = (beatEmission spb s e n (offTestedBeat nt)).map
        (fun so => ⟨so, EventKind.noteOff, nt.pitch, 0⟩)) := by
  have hl : loopLength = 5 := rfl
  refine ⟨fun h2 => ?_, fun hge heq => ?_, fun spb s e n => ⟨rfl, rfl⟩⟩
  · rw [hl] at h2
    unfold offTestedBeat
    dsimp only
    split
    · rename_i h5
      rw [hl] at h5
      rw [fmodQ_eq_sub 1 h0 (by push_cast; linarith) (by push_cast; linarith), hl]
      norm_num
    · rename_i h5
      rw [hl, not_le] at h5
      rw [fmodQ_eq_sub 0 h0 (by push_cast; linarith) (by push_cast; linarith)]
      norm_num
  · have hb := (fmodQ_bounds h0).2
    have hx10 : (10:ℚ) ≤ nt.startBeat + nt.duration := by
      rw [hl] at hge
      linarith
    unfold offTestedBeat at heq
    dsimp only at heq
    rw [if_pos (show nt.startBeat + nt.duration ≥ loopLength by
      rw [ge_iff_le, hl]
      linarith)] at heq
    have hl' : loopLength = (5:ℚ) := hl
    linarith [heq, hb, hx10, hl'.le, hl'.ge]

theorem off_beat_mod_witness :
    (0 ≤ (7:ℚ)/2 + 3/2) ∧
    ((((7:ℚ)/2 + 3/2 < 2 * loopLength →
        offTestedBeat ⟨60, 7/2, 3/2, 8/10⟩ = fmodQ ((7:ℚ)/2 + 3/2) loopLength) ∧
      (2 * loopLength ≤ (7:ℚ)/2 + 3/2 →
        offTestedBeat ⟨60, 7/2, 3/2, 8/10⟩ ≠ fmodQ ((7:ℚ)/2 + 3/2) loopLength) ∧
      (∀ spb s e n, noteEventsFor spb s e n ⟨60, 7/2, 3/2, 8/10⟩ =
          onEventFor spb s e n ⟨60, 7/2, 3/2, 8/10⟩ ++
            offEventFor spb s e n ⟨60, 7/2, 3/2, 8/10⟩ ∧
        offEventFor spb s e n ⟨60, 7/2, 3/2, 8/10⟩ =
          (beatEmission spb s e n (offTestedBeat ⟨60, 7/2, 3/2, 8/10⟩)).map
            (fun so => ⟨so, EventKind.noteOff, 60, 0⟩)))) :=
  ⟨by norm_num, off_beat_mod_and_independent ⟨60, 7/2, 3/2, 8/10⟩ (by norm_num)⟩

/-- C4 counterexample: for a note with `startBeat + duration = 10.1`, which
is at least `2 * loopLength`, the code's single conditional subtraction
tests the off event at beat `5.1`, not at `10.1 mod 5 = 0.1`. -/
theorem off_beat_not_mod_counterexample :
    offTestedBeat ⟨60, 9/2, 28/5, 8/10⟩ = 51/10 ∧
    fmodQ ((9:ℚ)/2 + 28/5) loopLength = 1/10 ∧
    offTestedBeat ⟨60, 9/2, 28/5, 8/10⟩ ≠ fmodQ ((9:ℚ)/2 + 28/5) loopLength := by
  refine ⟨?_, ?_, ?_⟩ <;> norm_num [offTestedBeat, fmodQ, ratTrunc, loopLength]

theorem windowContains_self_false (s' b : ℚ) : windowContains s' s' b = false := by
  unfold windowContains
  rw [if_neg (lt_irrefl s')]
  by_cases hbs : b < s'
  · simp [not_le.mpr hbs]
  · simp [hbs]

theorem beatEmission_block (spb : ℚ) (hspb : 0 < spb) (b : ℚ) (hb0 : 0 ≤ b) (hb5 : b < 5)
    (k p n : ℤ) (hp0 : 0 ≤ (p:ℚ)) (hn0 : 0 ≤ n) (hn5 : (n:ℚ) < 5 * spb)
    (hpl : 5 * (k:ℚ) * spb ≤ (p:ℚ)) (hpu : (p:ℚ) + (n:ℚ) ≤ 5 * ((k:ℚ) + 1) * spb) :
    (beatEmission spb (blockWindow spb p n).1 (blockWindow spb p n).2 n b).map
      (fun so => p + so) =
      if (p:ℚ) ≤ (5 * (k:ℚ) + b) * spb ∧ (5 * (k:ℚ) + b) * spb < (p:ℚ) + (n:ℚ)
      then [⌊(5 * (k:ℚ) + b) * spb⌋] else [] := by
  have hspb' : spb ≠ 0 := ne_of_gt hspb
  have hn0' : 0 ≤ (n:ℚ) := by exact_mod_cast hn0
  have hcast : ((p + n : ℤ) : ℚ) = (p:ℚ) + (n:ℚ) := by push_cast; ring
  rcases eq_or_lt_of_le hn0 with hn | hn
  · -- n = 0 : empty window, nothing emitted
    have hn' : n = 0 := hn.symm
    subst hn'
    have hwin : (blockWindow spb p 0).2 = (blockWindow spb p 0).1 := by
      unfold blockWindow
      norm_num
    have hfalse : windowContains (blockWindow spb p 0).1 (blockWindow spb p 0).2 b = false := by
      rw [hwin]
      exact windowContains_self_false _ b
    rw [if_neg]
    · unfold beatEmission
      rw [hfalse]
      simp
    · push_cast
      rintro ⟨h1, h2⟩
      linarith
  · -- 0 < n
    have hnQ : (0:ℚ) < (n:ℚ) := by exact_mod_cast hn
    have hα0 : 0 ≤ (p:ℚ) / spb := div_nonneg hp0 hspb.le
    have hβ0 : 0 ≤ ((p:ℚ) + (n:ℚ)) / spb := div_nonneg (by linarith) hspb.le
    have hαβ : (p:ℚ) / spb ≤ ((p:ℚ) + (n:ℚ)) / spb := by
      rw [div_le_div_iff₀ hspb hspb]
      nlinarith
    have hαk : 5 * (k:ℚ) ≤ (p:ℚ) / spb := by
      rw [le_div_iff₀ hspb]
      linarith
    have hαk1 : (p:ℚ) / spb < 5 * ((k:ℚ) + 1) := by
      rw [div_lt_iff₀ hspb]
      linarith
    have hβk1 : ((p:ℚ) + (n:ℚ)) / spb ≤ 5 * ((k:ℚ) + 1) := by
      rw [div_le_iff₀ hspb]
      linarith
    have hβk : 5 * (k:ℚ) ≤ ((p:ℚ) + (n:ℚ)) / spb := le_trans hαk hαβ
    have hs : (blockWindow spb p n).1 = (p:ℚ) / spb - 5 * (k:ℚ) := by
      show fmodQ ((p:ℚ) / spb) loopLength = _
      exact fmodQ_eq_sub k hα0 hαk hαk1
    have hαspb : (p:ℚ) / spb * spb = (p:ℚ) := div_mul_cancel₀ _ hspb'
    have hmem_lo : ((p:ℚ) / spb - 5 * (k:ℚ) ≤ b) ↔ ((p:ℚ) ≤ (5 * (k:ℚ) + b) * spb) := by
      rw [sub_le_iff_le_add, div_le_iff₀ hspb,
        show (b + 5 * (k:ℚ)) * spb = (5 * (k:ℚ) + b) * spb by ring]
    have hoffval : (b - ((p:ℚ) / spb - 5 * (k:ℚ))) * spb
        = (5 * (k:ℚ) + b) * spb - (p:ℚ) := by
      rw [show (b - ((p:ℚ) / spb - 5 * (k:ℚ))) * spb
          = (5 * (k:ℚ) + b) * spb - (p:ℚ) / spb * spb by ring, hαspb]
    rcases lt_or_eq_of_le hβk1 with hβlt | hβeq
    · -- the buffer does not wrap
      have he : (blockWindow spb p n).2 = ((p:ℚ) + (n:ℚ)) / spb - 5 * (k:ℚ) := by
        show fmodQ (((p + n : ℤ):ℚ) / spb) loopLength = _
        rw [hcast]
        exact fmodQ_eq_sub k hβ0 hβk hβlt
      have hes : ¬((blockWindow spb p n).2 < (blockWindow spb p n).1) := by
        rw [hs, he]
        linarith
      have hmem_hi : (b < ((p:ℚ) + (n:ℚ)) / spb - 5 * (k:ℚ)) ↔
          ((5 * (k:ℚ) + b) * spb < (p:ℚ) + (n:ℚ)) := by
        rw [lt_sub_iff_add_lt, lt_div_iff₀ hspb,
          show (b + 5 * (k:ℚ)) * spb = (5 * (k:ℚ) + b) * spb by ring]
      by_cases hmem : (blockWindow spb p n).1 ≤ b ∧ b < (blockWindow spb p n).2
      · have hwin : windowContains (blockWindow spb p n).1 (blockWindow spb p n).2 b = true := by
          unfold windowContains
          rw [if_neg hes]
          simp only [Bool.and_eq_true, decide_eq_true_eq, ge_iff_le]
          exact hmem
        have hcond : (p:ℚ) ≤ (5 * (k:ℚ) + b) * spb ∧
            (5 * (k:ℚ) + b) * spb < (p:ℚ) + (n:ℚ) := by
          refine ⟨hmem_lo.mp ?_, hmem_hi.mp ?_⟩
          · rw [← hs]
            exact hmem.1
          · rw [← he]
            exact hmem.2
        have hoff0 : ¬(b - (blockWindow spb p n).1 < 0) := by
          rw [hs, sub_neg]
          rw [hs] at hmem
          exact not_lt.mpr hmem.1
        have htr : ratTrunc ((b - (blockWindow spb p n).1) * spb)
            = ⌊(5 * (k:ℚ) + b) * spb⌋ - p := by
          rw [hs, hoffval, ratTrunc_of_nonneg (by linarith [hcond.1]),
            show (5 * (k:ℚ) + b) * spb - (p:ℚ)
              = (5 * (k:ℚ) + b) * spb + ((-p : ℤ) : ℚ) by push_cast; ring,
            Int.floor_add_int]
          ring
        have hguard : 0 ≤ ⌊(5 * (k:ℚ) + b) * spb⌋ - p ∧ ⌊(5 * (k:ℚ) + b) * spb⌋ - p < n := by
          constructor
          · rw [sub_nonneg, Int.le_floor]
            exact hcond.1
          · rw [sub_lt_iff_lt_add, Int.floor_lt]
            push_cast
            linarith [hcond.2]
        unfold beatEmission
        rw [hwin]
        dsimp only
        rw [if_neg hoff0, htr, if_pos hguard, if_pos hcond]
        have : p + (⌊(5 * (k:ℚ) + b) * spb⌋ - p) = ⌊(5 * (k:ℚ) + b) * spb⌋ := by omega
        simp [this]
      · have hwin : windowContains (blockWindow spb p n).1 (blockWindow spb p n).2 b = false := by
          unfold windowContains
          rw [if_neg hes]
          by_cases h1 : (blockWindow spb p n).1 ≤ b
          · have h2 : ¬(b < (blockWindow spb p n).2) := fun h2 => hmem ⟨h1, h2⟩
            simp [h1, h2]
          · simp [h1]
        have hcond' : ¬((p:ℚ) ≤ (5 * (k:ℚ) + b) * spb ∧
            (5 * (k:ℚ) + b) * spb < (p:ℚ) + (n:ℚ)) := by
          intro hc
          refine hmem ⟨?_, ?_⟩
          · rw [hs]
            exact hmem_lo.mpr hc.1
          · rw [he]
            exact hmem_hi.mpr hc.2
        unfold beatEmission
        rw [hwin, if_neg hcond']
        simp
    · -- the buffer ends exactly at the loop boundary: the window wraps to 0
      have he : (blockWindow spb p n).2 = 0 := by
        show fmodQ (((p + n : ℤ):ℚ) / spb) loopLength = 0
        rw [hcast]
        have h1 : 5 * ((k:ℚ) + 1) ≤ ((p:ℚ) + (n:ℚ)) / spb := le_of_eq hβeq.symm
        have h2 : ((p:ℚ) + (n:ℚ)) / spb < 5 * (((k:ℚ) + 1) + 1) := by
          rw [hβeq]
          linarith
        have := fmodQ_eq_sub (k + 1) hβ0 (by push_cast; linarith) (by push_cast; linarith)
        rw [this, hβeq]
        push_cast
        ring
      have hs_pos : 0 < (blockWindow spb p n).1 := by
        rw [hs]
        rcases lt_or_eq_of_le hαk with h | h
        · linarith
        · exfalso
          have hβα : ((p:ℚ) + (n:ℚ)) / spb - (p:ℚ) / spb = (n:ℚ) / spb := by
            field_simp
          rw [hβeq, ← h] at hβα
          have h5 : (n:ℚ) / spb = 5 := by linarith [hβα]
          rw [div_eq_iff hspb'] at h5
          linarith
      have hes : (blockWindow spb p n).2 < (blockWindow spb p n).1 := by
        rw [he]
        exact hs_pos
      have hTlt : (5 * (k:ℚ) + b) * spb < (p:ℚ) + (n:ℚ) := by
        have : (5 * (k:ℚ) + b) * spb < 5 * ((k:ℚ) + 1) * spb := by
          have : (5 * (k:ℚ) + b) < 5 * ((k:ℚ) + 1) := by linarith
          exact mul_lt_mul_of_pos_right this hspb
        have hβval : (p:ℚ) + (n:ℚ) = 5 * ((k:ℚ) + 1) * spb := by
          have := hβeq
          rw [div_eq_iff hspb'] at this
          linarith [this]
        linarith
      by_cases hmem : (blockWindow spb p n).1 ≤ b
      · have hwin : windowContains (blockWindow spb p n).1 (blockWindow spb p n).2 b = true := by
          unfold windowContains
          rw [if_pos hes]
          simp [hmem]
        have hcond : (p:ℚ) ≤ (5 * (k:ℚ) + b) * spb ∧
            (5 * (k:ℚ) + b) * spb < (p:ℚ) + (n:ℚ) := by
          refine ⟨hmem_lo.mp ?_, hTlt⟩
          rw [← hs]
          exact hmem
        have hoff0 : ¬(b - (blockWindow spb p n).1 < 0) := by
          rw [sub_neg]
          exact not_lt.mpr hmem
        have htr : ratTrunc ((b - (blockWindow spb p n).1) * spb)
            = ⌊(5 * (k:ℚ) + b) * spb⌋ - p := by
          rw [hs, hoffval, ratTrunc_of_nonneg (by linarith [hcond.1]),
            show (5 * (k:ℚ) + b) * spb - (p:ℚ)
              = (5 * (k:ℚ) + b) * spb + ((-p : ℤ) : ℚ) by push_cast; ring,
            Int.floor_add_int]
          ring
        have hguard : 0 ≤ ⌊(5 * (k:ℚ) + b) * spb⌋ - p ∧ ⌊(5 * (k:ℚ) + b) * spb⌋ - p < n := by
          constructor
          · rw [sub_nonneg, Int.le_floor]
            exact hcond.1
          · rw [sub_lt_iff_lt_add, Int.floor_lt]
            push_cast
            linarith [hcond.2]
        unfold beatEmission
        rw [hwin]
        dsimp only
        rw [if_neg hoff0, htr, if_pos hguard, if_pos hcond]
        have : p + (⌊(5 * (k:ℚ) + b) * spb⌋ - p) = ⌊(5 * (k:ℚ) + b) * spb⌋ := by omega
        simp [this]
      · have hwin : windowContains (blockWindow spb p n).1 (blockWindow spb p n).2 b = false := by
          unfold windowContains
          rw [if_pos hes, he]
          simp [hmem, not_lt.mpr hb0]
        have hcond' : ¬((p:ℚ) ≤ (5 * (k:ℚ) + b) * spb ∧
            (5 * (k:ℚ) + b) * spb < (p:ℚ) + (n:ℚ)) := by
          intro hc
          exact hmem (by rw [hs]; exact hmem_lo.mpr hc.1)
        unfold beatEmission
        rw [hwin, if_neg hcond']
        simp

theorem runEmissions_cycle_aux (spb : ℚ) (hspb : 0 < spb) (b : ℚ)
    (hb0 : 0 ≤ b) (hb5 : b < 5) (k : ℤ) :
    ∀ (ns : List ℤ) (p : ℤ), 0 ≤ (p:ℚ) → (∀ n ∈ ns, 0 ≤ n ∧ (n:ℚ) < 5 * spb) →
      5 * (k:ℚ) * spb ≤ (p:ℚ) →
      (p:ℚ) + ((ns.sum : ℤ):ℚ) ≤ 5 * ((k:ℚ) + 1) * spb →
      runEmissions spb b p ns =
        if (p:ℚ) ≤ (5 * (k:ℚ) + b) * spb ∧
            (5 * (k:ℚ) + b) * spb < (p:ℚ) + ((ns.sum : ℤ):ℚ)
        then [⌊(5 * (k:ℚ) + b) * spb⌋] else []
  | [], p, _, _, _, _ => by
    rw [show runEmissions spb b p [] = [] from rfl, if_neg]
    rintro ⟨h1, h2⟩
    simp only [List.sum_nil, Int.cast_zero, add_zero] at h2
    linarith
  | n :: ns, p, hp0, hns, hpl, hpu => by
    have hn := hns n (List.mem_cons_self n ns)
    have hrest : ∀ m ∈ ns, 0 ≤ m ∧ ((m:ℚ) < 5 * spb) :=
      fun m hm => hns m (List.mem_cons_of_mem n hm)
    have hsum0 : 0 ≤ ns.sum := List.sum_nonneg fun m hm => (hrest m hm).1
    have hsum0' : 0 ≤ ((ns.sum : ℤ):ℚ) := by exact_mod_cast hsum0
    have hn0' : 0 ≤ (n:ℚ) := by exact_mod_cast hn.1
    have hsumcast : (((n :: ns).sum : ℤ):ℚ) = (n:ℚ) + ((ns.sum : ℤ):ℚ) := by
      rw [List.sum_cons]
      push_cast
      ring
    rw [hsumcast] at hpu
    have hpu1 : (p:ℚ) + (n:ℚ) ≤ 5 * ((k:ℚ) + 1) * spb := by linarith
    have hstep := beatEmission_block spb hspb b hb0 hb5 k p n hp0 hn.1 hn.2 hpl hpu1
    have hcastpn : ((p + n : ℤ):ℚ) = (p:ℚ) + (n:ℚ) := by push_cast; ring
    have hp0n : 0 ≤ ((p + n : ℤ):ℚ) := by rw [hcastpn]; linarith
    have hpln : 5 * (k:ℚ) * spb ≤ ((p + n : ℤ):ℚ) := by rw [hcastpn]; linarith
    have hpun : ((p + n : ℤ):ℚ) + ((ns.sum : ℤ):ℚ) ≤ 5 * ((k:ℚ) + 1) * spb := by
      rw [hcastpn]
      linarith
    have hrec := runEmissions_cycle_aux spb hspb b hb0 hb5 k ns (p + n) hp0n hrest hpln hpun
    rw [show runEmissions spb b p (n :: ns) =
        (beatEmission spb (blockWindow spb p n).1 (blockWindow spb p n).2 n b).map
          (fun so => p + so) ++ runEmissions spb b (p + n) ns from rfl,
      hstep, hrec, hsumcast]
    rw [hcastpn]
    by_cases h1 : (p:ℚ) ≤ (5 * (k:ℚ) + b) * spb
    · by_cases h2 : (5 * (k:ℚ) + b) * spb < (p:ℚ) + (n:ℚ)
      · rw [if_pos ⟨h1, h2⟩, if_neg (by rintro ⟨ha, _⟩; linarith),
          if_pos ⟨h1, by linarith⟩]
        simp
      · by_cases h3 : (5 * (k:ℚ) + b) * spb < (p:ℚ) + (n:ℚ) + ((ns.sum : ℤ):ℚ)
        · rw [if_neg (by rintro ⟨_, hb'⟩; exact h2 hb'),
            if_pos ⟨by linarith, by linarith⟩,
            if_pos ⟨h1, by linarith⟩]
          simp
        · rw [if_neg (by rintro ⟨_, hb'⟩; exact h2 hb'),
            if_neg (by rintro ⟨_, hb'⟩; exact h3 (by linarith)),
            if_neg (by rintro ⟨_, hb'⟩; exact h3 (by linarith))]
          simp
    · rw [if_neg (by rintro ⟨ha, _⟩; exact h1 ha),
        if_neg (by rintro ⟨ha, _⟩; exact h1 (by linarith)),
        if_neg (by rintro ⟨ha, _⟩; exact h1 ha)]
      simp

theorem runEmissions_one_cycle (spb : ℚ) (hspb : 0 < spb) (b : ℚ)
    (hb0 : 0 ≤ b) (hb5 : b < 5) (k P : ℤ)
    (hP : (P:ℚ) = 5 * (k:ℚ) * spb) (hP0 : 0 ≤ (P:ℚ))
    (ns : List ℤ) (hns : ∀ n ∈ ns, 0 ≤ n ∧ (n:ℚ) < 5 * spb)
    (hsum : ((ns.sum : ℤ):ℚ) = 5 * spb) :
    ∃ o : ℤ, runEmissions spb b P ns = [P + o] ∧
      b * spb - 1 < (o:ℚ) ∧ (o:ℚ) ≤ b * spb := by
  have hbspb0 : 0 ≤ b * spb := mul_nonneg hb0 hspb.le
  have hbspb5 : b * spb < 5 * spb := mul_lt_mul_of_pos_right hb5 hspb
  have hcond : (P:ℚ) ≤ (5 * (k:ℚ) + b) * spb ∧
      (5 * (k:ℚ) + b) * spb < (P:ℚ) + ((ns.sum : ℤ):ℚ) := by
    rw [hP, hsum]
    constructor <;> nlinarith
  have hrun := runEmissions_cycle_aux spb hspb b hb0 hb5 k ns P hP0 hns
    (le_of_eq hP.symm) (by rw [hsum, hP]; exact le_of_eq (by ring))
  rw [hrun, if_pos hcond]
  refine ⟨⌊b * spb⌋, ?_, Int.sub_one_lt_floor _, Int.floor_le _⟩
  congr 1
  rw [show (5 * (k:ℚ) + b) * spb = b * spb + ((P : ℤ):ℚ) by rw [hP]; ring,
    Int.floor_add_int]
  omega

theorem melody_beats_bounds : ∀ nt ∈ melody,
    (0 ≤ nt.startBeat ∧ nt.startBeat < 5) ∧
    (0 ≤ offTestedBeat nt ∧ offTestedBeat nt < 5) := by
  intro nt hnt
  fin_cases hnt <;> norm_num [offTestedBeat, loopLength]

theorem scheduleBlock_length_decomp (spb : ℚ) (p n : ℤ) :
    (scheduleBlock spb p n).length =
      2 * ((beatEmission spb (blockWindow spb p n).1 (blockWindow spb p n).2 n 0).length +
        (beatEmission spb (blockWindow spb p n).1 (blockWindow spb p n).2 n (1/2)).length +
        (beatEmission spb (blockWindow spb p n).1 (blockWindow spb p n).2 n 1).length +
        (beatEmission spb (blockWindow spb p n).1 (blockWindow spb p n).2 n (3/2)).length +
        (beatEmission spb (blockWindow spb p n).1 (blockWindow spb p n).2 n (5/2)).length +
        (beatEmission spb (blockWindow spb p n).1 (blockWindow spb p n).2 n 3).length +
        (beatEmission spb (blockWindow spb p n).1 (blockWindow spb p n).2 n (7/2)).length) := by
  rw [scheduleBlock, scheduleBlockTable, foldl_addEvent_length]
  simp only [blockCandidates, melody, List.flatMap_cons, List.flatMap_nil, noteEventsFor,
    onEventFor, offEventFor, List.length_append, List.length_map, List.length_nil,
    List.append_nil]
  norm_num [offTestedBeat, loopLength]
  ring

theorem runSchedule_length_eq (spb : ℚ) : ∀ (ns : List ℤ) (p : ℤ),
    (runSchedule spb p ns).length =
      2 * ((runEmissions spb 0 p ns).length + (runEmissions spb (1/2) p ns).length +
        (runEmissions spb 1 p ns).length + (runEmissions spb (3/2) p ns).length +
        (runEmissions spb (5/2) p ns).length + (runEmissions spb 3 p ns).length +
        (runEmissions spb (7/2) p ns).length)
  | [], p => by simp [runSchedule, runEmissions]
  | n :: ns, p => by
    have ih := runSchedule_length_eq spb ns (p + n)
    have hblk := scheduleBlock_length_decomp spb p n
    have hre : ∀ b : ℚ, (runEmissions spb b p (n :: ns)).length =
        (beatEmission spb (blockWindow spb p n).1 (blockWindow spb p n).2 n b).length +
        (runEmissions spb b (p + n) ns).length := by
      intro b
      rw [show runEmissions spb b p (n :: ns) =
          (beatEmission spb (blockWindow spb p n).1 (blockWindow spb p n).2 n b).map
            (fun so => p + so) ++ runEmissions spb b (p + n) ns from rfl,
        List.length_append, List.length_map]
    rw [show runSchedule spb p (n :: ns) =
        scheduleBlock spb p n ++ runSchedule spb (p + n) ns from rfl,
      List.length_append, hblk, ih,
      hre 0, hre (1/2), hre 1, hre (3/2), hre (5/2), hre 3, hre (7/2)]
    omega

/-- C1 (amended): over any run of contiguous buffers that starts at a loop
boundary (`positionInSamples = loopLength * k * samplesPerBeat`) and whose
sizes sum to exactly one loop cycle, with each buffer strictly shorter than
one full loop, every note of the hardcoded table has its on event emitted
exactly once and its off event emitted exactly once, each at a sample offset
within one sample of `noteOnBeat * samplesPerBeat` (respectively
`noteOffBeat * samplesPerBeat`) past the loop start `P`; consequently the
full schedule of the run holds exactly `14 = 2 * 7` events. -/
theorem one_cycle_each_note_once (spb : ℚ) (hspb : 0 < spb) (k P : ℤ)
    (hP : (P:ℚ) = 5 * (k:ℚ) * spb) (hP0 : 0 ≤ (P:ℚ))
    (ns : List ℤ) (hns : ∀ n ∈ ns, 0 ≤ n ∧ (n:ℚ) < loopLength * spb)
    (hsum : ((ns.sum : ℤ):ℚ) = loopLength * spb) :
    (∀ nt ∈ melody,
      (∃ o : ℤ, runEmissions spb nt.startBeat P ns = [P + o] ∧
        nt.startBeat * spb - 1 < (o:ℚ) ∧ (o:ℚ) ≤ nt.startBeat * spb) ∧
      (∃ o : ℤ, runEmissions spb (offTestedBeat nt) P ns = [P + o] ∧
        offTestedBeat nt * spb - 1 < (o:ℚ) ∧ (o:ℚ) ≤ offTestedBeat nt * spb)) ∧
    (runSchedule spb P ns).length = 14 := by
  have hl : loopLength = 5 := rfl
  rw [hl] at hns hsum
  have main : ∀ b : ℚ, 0 ≤ b → b < 5 →
      ∃ o : ℤ, runEmissions spb b P ns = [P + o] ∧
        b * spb - 1 < (o:ℚ) ∧ (o:ℚ) ≤ b * spb :=
    fun b hb0 hb5 => runEmissions_one_cycle spb hspb b hb0 hb5 k P hP hP0 ns hns hsum
  constructor
  · intro nt hnt
    have hb := melody_beats_bounds nt hnt
    exact ⟨main _ hb.1.1 hb.1.2, main _ hb.2.1 hb.2.2⟩
  · have hlen : ∀ b : ℚ, 0 ≤ b → b < 5 → (runEmissions spb b P ns).length = 1 := by
      intro b h1 h2
      obtain ⟨o, ho, -⟩ := main b h1 h2
      rw [ho]
      rfl
    rw [runSchedule_length_eq,
      hlen 0 (by norm_num) (by norm_num), hlen (1/2) (by norm_num) (by norm_num),
      hlen 1 (by norm_num) (by norm_num), hlen (3/2) (by norm_num) (by norm_num),
      hlen (5/2) (by norm_num) (by norm_num), hlen 3 (by norm_num) (by norm_num),
      hlen (7/2) (by norm_num) (by norm_num)]

theorem one_cycle_witness :
    ((0:ℤ):ℚ) = 5 * ((0:ℤ):ℚ) * 22050 ∧
    (∀ n ∈ ([55125, 55125] : List ℤ), 0 ≤ n ∧ (n:ℚ) < loopLength * 22050) ∧
    (((([55125, 55125] : List ℤ).sum : ℤ):ℚ) = loopLength * 22050) ∧
    ((∀ nt ∈ melody,
      (∃ o : ℤ, runEmissions 22050 nt.startBeat 0 [55125, 55125] = [0 + o] ∧
        nt.startBeat * 22050 - 1 < (o:ℚ) ∧ (o:ℚ) ≤ nt.startBeat * 22050) ∧
      (∃ o : ℤ, runEmissions 22050 (offTestedBeat nt) 0 [55125, 55125] = [0 + o] ∧
        offTestedBeat nt * 22050 - 1 < (o:ℚ) ∧ (o:ℚ) ≤ offTestedBeat nt * 22050)) ∧
     (runSchedule 22050 0 [55125, 55125]).length = 14) :=
  ⟨by norm_num,
   by
    intro n hn
    fin_cases hn <;> norm_num [loopLength],
   by norm_num [loopLength],
   one_cycle_each_note_once 22050 (by norm_num) 0 0 (by norm_num) (by norm_num)
     [55125, 55125]
     (by
       intro n hn
       fin_cases hn <;> norm_num [loopLength])
     (by norm_num [loopLength])⟩

/-- C1 counterexample: a single buffer covering exactly one full loop
(`numSamples = loopLength * samplesPerBeat = 110250`) makes
`loopEndBeat = loopStartBeat`, is not detected as wrapped, and emits nothing
at all — so over this one-buffer cover of a full cycle starting at the loop
start, no note's on or off event is emitted even once. -/
theorem whole_loop_buffer_counterexample :
    ((([110250] : List ℤ).sum : ℤ):ℚ) = loopLength * 22050 ∧
    runEmissions 22050 0 0 [110250] = [] ∧
    scheduleBlock 22050 0 110250 = [] := by
  refine ⟨by norm_num [loopLength], ?_, ?_⟩ <;>
    norm_num [runEmissions, scheduleBlock, scheduleBlockTable, blockCandidates, blockWindow,
      fmodQ, ratTrunc, loopLength, melody, noteEventsFor, onEventFor, offEventFor,
      beatEmission, windowContains, offTestedBeat, addEvent]
